import Mathlib

/-!
Verification of the ic-proj-2 predictive codecs.

Shallow embedding of the Golomb coder (`src/golomb.cpp`), the lossless audio
codec (`src/lossless_audio.cpp`), the lossless image codec
(`src/lossless_image.cpp`) and the energy-factor computation of the lossy DCT
codec (`lib/bit_stream/src/lossy_codec_enc.cpp`), together with proofs and
refutations of the specification's claims about them.

Bits are modelled as `Bool` (`true` = bit 1, `false` = bit 0) and bit streams
as `List Bool`.  Machine integers are modelled as `Nat`/`Int` with explicit
wrap-around (`% 2^w`) where the C++ code can overflow.
-/

namespace ICProj2

/-! ## Bit-level layer

`bit_stream.h` is not part of the source tree (only its users are), so the
`BitStream` operations are modelled from the spec (§4.1): MSB-first packing of
the `n` least-significant bits of a value; reading past the end yields
zero-filled bits; `close()` pads the trailing byte with zero bits. -/

/-- Numeric value of one bit. -/
def bitVal (b : Bool) : Nat := if b then 1 else 0

/-- Modelled from the spec: `BitStream::write_n_bits(v, w)` emits the `w`
low-order bits of `v`, most significant first. -/
def natBits : Nat → Nat → List Bool
  | 0, _ => []
  | w + 1, v => natBits w (v / 2) ++ [decide (v % 2 = 1)]

/-- Value of an MSB-first bit string. -/
def bitsToNat : List Bool → Nat
  | [] => 0
  | b :: l => bitVal b * 2 ^ l.length + bitsToNat l

/-- Modelled from the spec: `BitStream::read_bit`; `none` is the EOF result. -/
def readBit : List Bool → Option (Bool × List Bool)
  | [] => none
  | b :: s => some (b, s)

/-- Modelled from the spec: `BitStream::read_n_bits(w)`; bits past the end of
the stream read as zero. -/
def readN (w : Nat) (s : List Bool) : Nat × List Bool :=
  (bitsToNat (s.take w ++ List.replicate (w - s.length) false), s.drop w)

/-- Modelled from the spec: `BitStream::close()` zero-pads to a byte boundary. -/
def pad8 (s : List Bool) : List Bool :=
  s ++ List.replicate ((8 - s.length % 8) % 8) false

/-! ## Integer helpers -/

/-- Wrap-around conversion of an unbounded integer to a 16-bit signed value,
modelling a C++ narrowing store into `int16_t`. -/
def wrap16 (x : Int) : Int := (x + 32768) % 65536 - 32768

/-- `Golomb::mapToUnsigned` in interleaving mode (`golomb.cpp`), also inlined
in both lossless codecs: zig-zag map of a signed residual. -/
def mapToUnsigned (n : Int) : Nat :=
  if 0 ≤ n then 2 * n.toNat else 2 * (-n).toNat - 1

/-- `Golomb::mapToSigned` in interleaving mode (`golomb.cpp`), also inlined in
both lossless decoders. -/
def mapToSigned (u : Nat) : Int :=
  if u % 2 = 0 then ((u / 2 : Nat) : Int) else -(((u + 1) / 2 : Nat) : Int)

/-- `ceil(log2 m)` as the C++ sources compute it
(`static_cast<uint32_t>(std::ceil(std::log2((double)m)))`): the least `e` with
`m ≤ 2^e`.  For `1 ≤ m < 2^32` the floating-point computation is exact enough
that this integer characterisation is faithful.  Fuel-based so that it
evaluates by kernel reduction. -/
def ceilLog2Go (m : Nat) : Nat → Nat → Nat
  | 0, acc => acc
  | fuel + 1, acc => if m ≤ 2 ^ acc then acc else ceilLog2Go m fuel (acc + 1)

def ceilLog2 (m : Nat) : Nat := ceilLog2Go m 64 0

/-! ## Truncated binary and Golomb codewords

Shared between `golomb.cpp` and the inlined coders of `lossless_audio.cpp`
and `lossless_image.cpp`.  A codeword for the mapped value `u` is `u / m`
zero bits, a one bit, then the truncated-binary code of `u % m` using the
per-block values `b` and `cutoff`. -/

/-- Truncated-binary emitter (encoder side, `r < cutoff` branch uses `b-1`
bits, otherwise `b` bits of `r + cutoff`). -/
def encTB (b cutoff r : Nat) : List Bool :=
  if r < cutoff then natBits (b - 1) r else natBits b (r + cutoff)

/-- Truncated-binary reader: read `b-1` bits (none when `b ≤ 1`, matching the
`if (b > 1)` guards in both codecs), then conditionally one extra bit.
`none` models EOF on the extra-bit read. -/
def decTB (b cutoff : Nat) (s : List Bool) : Option (Nat × List Bool) :=
  if (readN (b - 1) s).1 < cutoff then some (readN (b - 1) s)
  else
    match readBit (readN (b - 1) s).2 with
    | none => none
    | some (bit, s2) => some (2 * (readN (b - 1) s).1 + bitVal bit - cutoff, s2)

/-- Result of decoding one Golomb symbol from the stream, with the three exit
paths of the inlined decoders: success, EOF hit, or the runaway-unary
corruption check (`q > 100000`). -/
inductive SymRes where
  | ok (u : Nat) (rest : List Bool)
  | eof
  | bad

/-- One inlined Golomb symbol decode, as in `decodeGolombToWav` and
`decodeImage`: count leading zeros (corrupt if more than 100000, EOF if the
stream ends before the terminator), skip the `1`, then truncated binary. -/
def decSym (m b cutoff : Nat) (s : List Bool) : SymRes :=
  let zeros := (s.takeWhile (fun x => !x)).length
  if 100000 < zeros then .bad
  else if zeros = s.length then .eof
  else
    match decTB b cutoff (s.drop (zeros + 1)) with
    | none => .eof
    | some (r, s2) => .ok (zeros * m + r) s2

/-- One inlined Golomb symbol encode without a quotient cap, as in
`encodeImage`. -/
def encSymPlain (m b cutoff u : Nat) : List Bool :=
  List.replicate (u / m) false ++ true :: encTB b cutoff (u % m)

/-- One inlined Golomb symbol encode of `encodeWavWithGolomb`: the quotient is
capped at 10000 zero bits (`if (q > 10000) q = 10000;`). -/
def encSymClamped (m b cutoff u : Nat) : List Bool :=
  List.replicate (min (u / m) 10000) false ++ true :: encTB b cutoff (u % m)

/-! ## The `Golomb` class (`golomb.cpp`), interleaving mode -/

namespace Golomb

/-- `Golomb::encode` (interleaving mode): unary quotient, terminating `1`,
truncated-binary remainder.  The remainder loops run `max(b-1,0)` resp. `b`
times (`static_cast<int>(b) - 2` downwards), which `encTB` reproduces. -/
def encode (m : Nat) (n : Int) : List Bool :=
  let b := ceilLog2 m
  let mapped := mapToUnsigned n
  List.replicate (mapped / m) false ++ true :: encTB b (2 ^ b - m) (mapped % m)

/-- `Golomb::decode` (interleaving mode).  Returns the decoded value and
`bitsUsed`; `none` models a thrown `std::invalid_argument`.  The remainder
length `b - 1` is computed in `uint32_t`, so for `m = 1` (where `b = 0`) it
wraps around to `2^32 - 1`. -/
def decode (m : Nat) (bits : List Bool) : Option (Int × Nat) :=
  if bits.length = 0 then none
  else
    let b := ceilLog2 m
    let zeros := (bits.takeWhile (fun x => !x)).length
    if zeros = bits.length then none
    else
      let pos := zeros + 1
      let cutoff := 2 ^ b - m
      let bm1 := (b + (2 ^ 32 - 1)) % 2 ^ 32
      if bits.length < pos + bm1 then none
      else
        let r0 := bitsToNat ((bits.drop pos).take bm1)
        if r0 < cutoff then some (mapToSigned (zeros * m + r0), pos + bm1)
        else
          if bits.length ≤ pos + bm1 then none
          else
            some (mapToSigned (zeros * m +
              (2 * r0 + bitVal (bits.getD (pos + bm1) false) - cutoff)),
              pos + bm1 + 1)

end Golomb

/-! ## Linear audio predictor (`lossless_audio.cpp`) -/

/-- Per-channel predictor history: `(s[n-1], s[n-2], s[n-3])`. -/
abbrev Hist := Int × Int × Int

/-- `computePrediction`: order-0..3 linear prediction, clamped to the 16-bit
signed range; unknown orders predict 0. -/
def computePrediction (order : Nat) (h : Hist) : Int :=
  let pred : Int :=
    match order with
    | 0 => 0
    | 1 => h.1
    | 2 => 2 * h.1 - h.2.1
    | 3 => 3 * h.1 - 3 * h.2.1 + h.2.2
    | _ + 4 => 0
  max (-32768) (min 32767 pred)

/-- History shift `h[2]←h[1]; h[1]←h[0]; h[0]←x`. -/
def histPush (h : Hist) (x : Int) : Hist := (x, h.1, h.2.1)

/-- Residual computation of the encoder loop (`lossless_audio.cpp` lines
142-158): cycles through the encoded channels, producing
`sample − prediction` and updating that channel's history with the sample. -/
def residsGo (order numCh : Nat) : Nat → List Hist → List Int → List Int × List Hist
  | _, hs, [] => ([], hs)
  | ch, hs, x :: xs =>
    let h := hs.getD ch (0, 0, 0)
    let p := computePrediction order h
    let next := residsGo order numCh ((ch + 1) % numCh) (hs.set ch (histPush h x)) xs
    ((x - p) :: next.1, next.2)

/-- Sample reconstruction of the decoder loop (`lossless_audio.cpp` lines
309-354): `sample = (int16_t)(pred + resid)`, history updated with the
reconstructed sample. -/
def reconsGo (order numCh : Nat) : Nat → List Hist → List Int → List Int × List Hist
  | _, hs, [] => ([], hs)
  | ch, hs, e :: es =>
    let h := hs.getD ch (0, 0, 0)
    let x := wrap16 (computePrediction order h + e)
    let next := reconsGo order numCh ((ch + 1) % numCh) (hs.set ch (histPush h x)) es
    (x :: next.1, next.2)

/-! ## Mid/side stereo transform (`lossless_audio.cpp`) -/

/-- Forward mid/side: per frame, `side = L − R` and `mid = R + (side >> 1)`,
both stored into `int16_t` (wrap-around); `>> 1` on a negative `int` is an
arithmetic shift, i.e. floor division by 2. -/
def midSideFwd : List Int → List Int
  | l :: r :: rest =>
    wrap16 (r + Int.fdiv (wrap16 (l - r)) 2) :: wrap16 (l - r) :: midSideFwd rest
  | other => other

/-- Inverse mid/side: `R = mid − (side >> 1)`, `L = R + side`. -/
def midSideInv : List Int → List Int
  | m :: s :: rest =>
    wrap16 (wrap16 (m - Int.fdiv s 2) + s) :: wrap16 (m - Int.fdiv s 2) ::
      midSideInv rest
  | other => other

/-! ## Decoding a run of Golomb symbols -/

/-- Decode `count` symbols (the inner loop of `decodeGolombToWav`): on EOF the
loop breaks with the partial result (the stream is exhausted at that point);
the runaway-unary check aborts the whole decode, signalled by the final
`Bool`. -/
def decSyms (m b cutoff : Nat) : Nat → List Bool → List Nat × List Bool × Bool
  | 0, s => ([], s, false)
  | n + 1, s =>
    match decSym m b cutoff s with
    | .bad => ([], s, true)
    | .eof => ([], [], false)
    | .ok u s1 =>
      let r := decSyms m b cutoff n s1
      (u :: r.1, r.2.1, r.2.2)

/-! ## Splitting a sample stream into blocks -/

/-- Chunk a list into consecutive pieces of `k` elements (the last one may be
shorter); with `k = 0` no blocks are produced, matching a zero-frame
`sf_readf_short` request.  Fuel-based so that it evaluates by kernel
reduction; `xs.length` fuel always suffices. -/
def chunkGo (k : Nat) : Nat → List α → List (List α)
  | 0, _ => []
  | _, [] => []
  | fuel + 1, x :: xs =>
    if k = 0 then []
    else (x :: xs).take k :: chunkGo k fuel ((x :: xs).drop k)

def chunkList (k : Nat) (xs : List α) : List (List α) := chunkGo k xs.length xs

/-! ## Lossless audio codec pipeline (`lossless_audio.cpp`) -/

/-- The adaptive-`m` estimator of `encodeWavWithGolomb` (lines 160-177).  The
mean-absolute/log₂ arithmetic is IEEE `double`, abstracted as `estimate`
except on the two exactly-representable paths the claims are about: an empty
block has `meanAbs = 1.0`, so `α = 0.5`, `log₂ α = −1`, `m = ceil(1) = 1`; an
all-zero block has `meanAbs = 0.0`, so `α = 0.0`, `log₂ 0 = −∞`,
`−1/−∞ = +0`, `ceil(+0) = 0` — and the audio encoder applies no clamp
afterwards. -/
def audioAdaptiveM (estimate : Nat → Nat → Nat) (residuals : List Int) : Nat :=
  if residuals.isEmpty then 1
  else if (residuals.map Int.natAbs).sum = 0 then 0
  else estimate ((residuals.map Int.natAbs).sum) residuals.length

/-- The adaptive-`m` estimator of `encodeImage` (lines 296-316): same formula
(same IEEE abstraction), then `blockM = max(1, min(256, blockM))` and the
`if (blockM == 0) blockM = 1` safety check. -/
def imageAdaptiveM (estimate : Nat → Nat → Nat) (residuals : List Int) : Nat :=
  let raw :=
    if residuals.isEmpty then 1
    else if (residuals.map Int.natAbs).sum = 0 then 0
    else estimate ((residuals.map Int.natAbs).sum) residuals.length
  let clamped := max 1 (min 256 raw)
  if clamped = 0 then 1 else clamped

/-- Residual stream of `encodeWavWithGolomb`: per block, the (mid/side
transformed, when stereo) samples are turned into prediction residuals with
per-channel histories carried across blocks. -/
def audioResiduals (order numCh : Nat) : List Hist → List (List Int) → List Int
  | _, [] => []
  | hs, blk :: blks =>
    let pr := residsGo order numCh 0 hs (if numCh = 2 then midSideFwd blk else blk)
    pr.1 ++ audioResiduals order numCh pr.2 blks

/-- Per-block bit output of `encodeWavWithGolomb` (lines 116-217): 16-bit
block `m`, 32-bit residual count, then the capped Golomb codewords.  When the
caller passed `m = 0` the block `m` comes from `audioAdaptiveM`, whose
floating-point core is abstracted as the parameter `estimate`. -/
def audioEncBlocks (estimate : Nat → Nat → Nat) (order numCh m : Nat) :
    List Hist → List (List Int) → List Bool
  | _, [] => []
  | hs, blk :: blks =>
    let pr := residsGo order numCh 0 hs (if numCh = 2 then midSideFwd blk else blk)
    let bm := if m = 0 then audioAdaptiveM estimate pr.1 else m
    let b := ceilLog2 bm
    natBits 16 bm ++ natBits 32 pr.1.length ++
      (pr.1.map (fun r => encSymClamped bm b (2 ^ b - bm) (mapToUnsigned r))).flatten ++
      audioEncBlocks estimate order numCh m pr.2 blks

/-- `encodeWavWithGolomb`: file header, per-block payloads, zero-padding to a
byte boundary.  `samples` is the channel-interleaved 16-bit PCM content of the
input WAV; `frames`, `channels` and `rate` come from its header. -/
def encodeWavWithGolomb (estimate : Nat → Nat → Nat)
    (rate channels frames blockSamples order m : Nat) (samples : List Int) :
    List Bool :=
  pad8 (natBits 32 rate ++ natBits 16 channels ++ natBits 64 frames ++
    natBits 32 blockSamples ++ natBits 8 order ++
    audioEncBlocks estimate order channels m (List.replicate channels (0, 0, 0))
      (chunkList (blockSamples * channels) samples))

/-- Decoder block loop of `decodeGolombToWav` (lines 288-391): read the
16-bit block `m` and 32-bit count (zero means end of stream), decode and
reconstruct that many samples, undo mid/side for stereo, and continue until
`total` samples are produced.  `fuel` bounds the iteration count; every call
made by `decodeGolombToWav` supplies enough fuel for any stream the encoder
emits. -/
def decodeLoop (order numCh total : Nat) :
    Nat → Nat → List Hist → List Bool → List Int → Option (List Int)
  | 0, processed, _, _, acc => if total ≤ processed then some acc else none
  | fuel + 1, processed, hs, s, acc =>
    if total ≤ processed then some acc
    else
      let p1 := readN 16 s
      let p2 := readN 32 p1.2
      if p1.1 = 0 ∨ p2.1 = 0 then some acc
      else
        let b := ceilLog2 p1.1
        let d := decSyms p1.1 b (2 ^ b - p1.1) p2.1 p2.2
        if d.2.2 then none
        else
          let pr := reconsGo order numCh 0 hs (d.1.map mapToSigned)
          decodeLoop order numCh total fuel (processed + pr.1.length) pr.2 d.2.1
            (acc ++ (if numCh = 2 then midSideInv pr.1 else pr.1))

/-- `decodeGolombToWav`: read the file header, then run the block loop.
Returns the decoded channel-interleaved samples, `none` on a fatal decode
error. -/
def decodeGolombToWav (s : List Bool) : Option (List Int) :=
  let p1 := readN 32 s
  let p2 := readN 16 p1.2
  let p3 := readN 64 p2.2
  let p4 := readN 32 p3.2
  let p5 := readN 8 p4.2
  decodeLoop p5.1 p2.1 (p3.1 * p2.1) (p3.1 * p2.1 + 1) 0
    (List.replicate p2.1 (0, 0, 0)) p5.2 []

/-! ## Lossless image codec (`lossless_image.cpp`) -/

/-- `predict`: JPEG lossless modes 0-7 plus the JPEG-LS mode 8, computed in
`int32_t`; `/` is C++ integer division (truncation toward zero), hence
`Int.tdiv`.  Mode 8 falls back on neighbour VALUES being zero, not on pixel
position.  Unknown modes predict 0. -/
def predict (p : Nat) (a b c : Nat) : Int :=
  match p with
  | 0 => 0
  | 1 => (a : Int)
  | 2 => (b : Int)
  | 3 => (c : Int)
  | 4 => (a : Int) + b - c
  | 5 => (a : Int) + Int.tdiv ((b : Int) - c) 2
  | 6 => (b : Int) + Int.tdiv ((a : Int) - c) 2
  | 7 => Int.tdiv ((a : Int) + b) 2
  | 8 =>
    if a = 0 ∧ b = 0 then 0
    else if a = 0 then (b : Int)
    else if b = 0 then (a : Int)
    else if (c : Int) ≥ max (a : Int) b then min (a : Int) b
    else if (c : Int) ≤ min (a : Int) b then max (a : Int) b
    else (a : Int) + b - c
  | _ + 9 => 0

/-- The median-edge (MED) formula as the specification words it for interior
pixels: `min(a,b)` if `c ≥ max(a,b)`, `max(a,b)` if `c ≤ min(a,b)`, otherwise
`a + b − c`.  Stated from the spec for comparison with `predict 8`. -/
def medPredictor (a b c : Nat) : Int :=
  if (c : Int) ≥ max (a : Int) b then min (a : Int) b
  else if (c : Int) ≤ min (a : Int) b then max (a : Int) b
  else (a : Int) + b - c

/-- Read the pixel buffer (a zero-initialised `std::vector<uint8_t>`). -/
def pixelAt (pixels : List Nat) (i : Nat) : Nat := pixels.getD i 0

/-- The neighbourhood `(left, up, upLeft)` of pixel `i` in a row-major
`width`-wide image; out-of-range neighbours read as 0. -/
def neighborsOf (pixels : List Nat) (width i : Nat) : Nat × Nat × Nat :=
  let y := i / width
  let x := i % width
  (if 0 < x then pixelAt pixels (y * width + (x - 1)) else 0,
   if 0 < y then pixelAt pixels ((y - 1) * width + x) else 0,
   if 0 < x ∧ 0 < y then pixelAt pixels ((y - 1) * width + (x - 1)) else 0)

/-- The residual `pixel − prediction` the image encoder computes at pixel
index `i` (from the original pixels; the pipeline is lossless so these equal
the reconstructed neighbours). -/
def imageResidualAt (pixels : List Nat) (width p i : Nat) : Int :=
  (pixelAt pixels i : Int) -
    predict p (neighborsOf pixels width i).1 (neighborsOf pixels width i).2.1
      (neighborsOf pixels width i).2.2

/-- Per-block bit output of `encodeImage` (lines 268-378): an 8-bit block `m`
when adaptive, then the (uncapped) Golomb codewords of the block's residuals.
`b` and `cutoff` are derived per block, with `cutoff` computed before the
`b = max b 1` fix, exactly as in the source.  When adaptive the block `m`
comes from `imageAdaptiveM`, whose floating-point core is abstracted as
`estimate`.  One fuel unit per block; `total + 1` always suffices. -/
def imageEncBlocksGo (estimate : Nat → Nat → Nat)
    (pixels : List Nat) (width predictor m blockSize total : Nat) :
    Nat → Nat → List Bool
  | 0, _ => []
  | fuel + 1, start =>
    if total ≤ start then []
    else
      let cur := min blockSize (total - start)
      let blk := (List.range' start cur).map (imageResidualAt pixels width predictor)
      let bm := if m = 0 then imageAdaptiveM estimate blk else m
      let b0 := ceilLog2 bm
      let cutoff := 2 ^ b0 - bm
      let b := max b0 1
      (if m = 0 then natBits 8 bm else []) ++
        (blk.map (fun r => encSymPlain bm b cutoff (mapToUnsigned r))).flatten ++
        imageEncBlocksGo estimate pixels width predictor m blockSize total fuel
          (start + cur)

/-- `encodeImage`: `GIMG` header then the block payloads, zero-padded to a
byte boundary.  A `blockSize` of 0 is normalised to one row (`width`). -/
def encodeImage (estimate : Nat → Nat → Nat)
    (width height predictor m blockSize : Nat) (pixels : List Nat) :
    List Bool :=
  pad8 (natBits 32 0x47494D47 ++ natBits 32 width ++ natBits 32 height ++
    natBits 8 predictor ++ natBits 8 m ++
    natBits 32 (if blockSize = 0 then width else blockSize) ++
    imageEncBlocksGo estimate pixels width predictor m
      (if blockSize = 0 then width else blockSize) (width * height)
      (width * height + 1) 0)

/-- Per-pixel loop of `decodeImage` (lines 468-529): decode one Golomb
symbol, reconstruct the pixel from the already-decoded neighbours, clamp to
`[0, 255]`, append.  Any EOF or runaway-unary condition fails the decode. -/
def imageDecPixels (bm b cutoff predictor width : Nat) :
    Nat → List Nat → List Bool → Option (List Nat × List Bool)
  | 0, px, s => some (px, s)
  | n + 1, px, s =>
    match decSym bm b cutoff s with
    | .ok u s1 =>
      let nb := neighborsOf px width px.length
      let v := predict predictor nb.1 nb.2.1 nb.2.2 + mapToSigned u
      imageDecPixels bm b cutoff predictor width n
        (px ++ [(max 0 (min 255 v)).toNat]) s1
    | _ => none

/-- Block loop of `decodeImage` (lines 437-535): read the 8-bit block `m`
when the header flag says adaptive (a stored value of 0 is a fatal format
error), then decode the block's pixels. -/
def imageDecBlocks (predictor mFlag width total blockSize : Nat) :
    Nat → List Nat → List Bool → Option (List Nat)
  | 0, px, _ => if total ≤ px.length then some px else none
  | fuel + 1, px, s =>
    if total ≤ px.length then some px
    else
      let p := if mFlag = 0 then readN 8 s else (mFlag, s)
      if p.1 = 0 then none
      else
        let b0 := ceilLog2 p.1
        match imageDecPixels p.1 (max b0 1) (2 ^ b0 - p.1) predictor width
            (min blockSize (total - px.length)) px p.2 with
        | none => none
        | some (px2, s2) =>
          imageDecBlocks predictor mFlag width total blockSize fuel px2 s2

/-- `decodeImage`: check the magic, read the header, run the block loop.  A
header block size of 0 with a nonempty image would loop forever in the C++
(`blockStart += 0`); the model returns `none` there. -/
def decodeImage (s : List Bool) : Option (List Nat) :=
  let p0 := readN 32 s
  if p0.1 ≠ 0x47494D47 then none
  else
    let p1 := readN 32 p0.2
    let p2 := readN 32 p1.2
    let p3 := readN 8 p2.2
    let p4 := readN 8 p3.2
    let p5 := readN 32 p4.2
    if p5.1 = 0 ∧ 0 < p1.1 * p2.1 then none
    else
      imageDecBlocks p3.1 p4.1 p1.1 (p1.1 * p2.1) p5.1 (p1.1 * p2.1 + 1) [] p5.2

/-! ## Block parameter estimators and the lossy energy factor -/

/-- The lossy audio encoder's block energy factor
(`lossy_codec_enc.cpp` lines 123-131): `clamp(10·RMS, 0.5, 2.0)`, modelled
exactly over `ℚ` (the clamp bounds and the scale by 1000 are
exactly representable, so the rational chain bounds the double chain). -/
def energyFactor (e : ℚ) : ℚ := max (1 / 2) (min 2 (10 * e))

/-- The 16-bit field the lossy encoder writes:
`uint16_t(energy_factor * 1000)` (truncation toward zero; the value is
nonnegative, so this is the floor). -/
def energyFactorField (e : ℚ) : Nat := (⌊energyFactor e * 1000⌋).toNat

/-! ## Theorems and supporting lemmas -/

theorem natBits_length (w v : Nat) : (natBits w v).length = w := by
  induction w generalizing v with
  | zero => rfl
  | succ w ih => simp [natBits, ih]

theorem bitsToNat_append_singleton (l : List Bool) (b : Bool) :
    bitsToNat (l ++ [b]) = 2 * bitsToNat l + bitVal b := by
  induction l with
  | nil => simp [bitsToNat]
  | cons a l ih =>
    simp only [List.cons_append, bitsToNat, ih, List.append_eq]
    have hlen : (l ++ [b]).length = l.length + 1 := by simp
    rw [hlen, pow_succ]
    ring

theorem bitsToNat_natBits (w v : Nat) : bitsToNat (natBits w v) = v % 2 ^ w := by
  induction w generalizing v with
  | zero => simp [natBits, bitsToNat, Nat.mod_one]
  | succ w ih =>
    rw [natBits, bitsToNat_append_singleton, ih]
    have hbv : bitVal (decide (v % 2 = 1)) = v % 2 := by
      rcases Nat.mod_two_eq_zero_or_one v with h | h <;> simp [bitVal, h]
    rw [hbv, pow_succ', Nat.mod_mul]
    omega

theorem bitsToNat_lt (l : List Bool) : bitsToNat l < 2 ^ l.length := by
  induction l with
  | nil => simp [bitsToNat]
  | cons b l ih =>
    simp only [bitsToNat, List.length_cons, pow_succ]
    cases b <;> simp [bitVal] <;> omega

theorem readN_append (w : Nat) (l rest : List Bool) (h : l.length = w) :
    readN w (l ++ rest) = (bitsToNat l, rest) := by
  subst h
  simp [readN, List.take_append, List.drop_append]

theorem readN_natBits (w v : Nat) (rest : List Bool) :
    readN w (natBits w v ++ rest) = (v % 2 ^ w, rest) := by
  rw [readN_append w _ _ (natBits_length w v), bitsToNat_natBits]

theorem wrap16_eq_self (x : Int) (h1 : -32768 ≤ x) (h2 : x ≤ 32767) :
    wrap16 x = x := by
  unfold wrap16; omega

theorem wrap16_range (x : Int) : -32768 ≤ wrap16 x ∧ wrap16 x ≤ 32767 := by
  unfold wrap16; omega

theorem wrap16_add_left (a b : Int) : wrap16 (wrap16 a + b) = wrap16 (a + b) := by
  unfold wrap16; omega

theorem wrap16_sub_left (a b : Int) : wrap16 (wrap16 a - b) = wrap16 (a - b) := by
  unfold wrap16; omega

theorem mapToSigned_mapToUnsigned (n : Int) :
    mapToSigned (mapToUnsigned n) = n := by
  unfold mapToSigned mapToUnsigned
  by_cases h : 0 ≤ n
  · simp only [h, if_true]
    have h2 : (2 * n.toNat) % 2 = 0 := by omega
    simp only [h2, if_true]
    omega
  · simp only [h, if_false]
    have hn : 1 ≤ (-n).toNat := by omega
    have h2 : ¬((2 * (-n).toNat - 1) % 2 = 0) := by omega
    simp only [h2, if_false]
    omega

theorem ceilLog2Go_spec (m : Nat) (fuel acc : Nat)
    (hfits : m ≤ 2 ^ (acc + fuel)) (hlow : ∀ j < acc, 2 ^ j < m) :
    m ≤ 2 ^ ceilLog2Go m fuel acc ∧ ∀ j < ceilLog2Go m fuel acc, 2 ^ j < m := by
  induction fuel generalizing acc with
  | zero => exact ⟨by simpa using hfits, hlow⟩
  | succ fuel ih =>
    unfold ceilLog2Go
    by_cases h : m ≤ 2 ^ acc
    · rw [if_pos h]
      exact ⟨h, hlow⟩
    · rw [if_neg h]
      refine ih (acc + 1) (by rw [show acc + 1 + fuel = acc + (fuel + 1) by omega]; exact hfits) ?_
      intro j hj
      rcases Nat.lt_succ_iff_lt_or_eq.mp hj with hj' | hj'
      · exact hlow j hj'
      · subst hj'; omega

theorem ceilLog2_spec (m : Nat) (h1 : 1 ≤ m) (h2 : m ≤ 2 ^ 64) :
    m ≤ 2 ^ ceilLog2 m ∧ ∀ j < ceilLog2 m, 2 ^ j < m := by
  exact ceilLog2Go_spec m 64 0 (by simpa using h2) (by omega)

theorem ceilLog2_pos (m : Nat) (h1 : 2 ≤ m) (h2 : m ≤ 2 ^ 64) :
    1 ≤ ceilLog2 m := by
  rcases ceilLog2_spec m (by omega) h2 with ⟨hle, _⟩
  by_contra h
  have : ceilLog2 m = 0 := by omega
  rw [this] at hle
  omega

theorem ceilLog2_pred_lt (m : Nat) (h1 : 2 ≤ m) (h2 : m ≤ 2 ^ 64) :
    2 ^ (ceilLog2 m - 1) < m := by
  rcases ceilLog2_spec m (by omega) h2 with ⟨_, hlt⟩
  have hb := ceilLog2_pos m h1 h2
  exact hlt _ (by omega)

theorem decTB_encTB (b cutoff r : Nat) (rest : List Bool)
    (hb : 1 ≤ b) (hcut : cutoff ≤ 2 ^ (b - 1)) (hr : r + cutoff < 2 ^ b) :
    decTB b cutoff (encTB b cutoff r ++ rest) = some (r, rest) := by
  obtain ⟨b', rfl⟩ : ∃ b', b = b' + 1 := ⟨b - 1, by omega⟩
  by_cases h : r < cutoff
  · rw [encTB, if_pos h, decTB]
    have hlt : r < 2 ^ b' := by
      have : (2:Nat) ^ (b' + 1 - 1) = 2 ^ b' := by norm_num
      omega
    simp only [Nat.add_sub_cancel, readN_natBits, Nat.mod_eq_of_lt hlt, if_pos h]
  · rw [encTB, if_neg h, decTB]
    push_neg at h
    have hsplit : natBits (b' + 1) (r + cutoff) =
        natBits b' ((r + cutoff) / 2) ++ [decide ((r + cutoff) % 2 = 1)] := rfl
    rw [hsplit, List.append_assoc, List.cons_append, List.nil_append]
    simp only [Nat.add_sub_cancel]
    rw [readN_natBits]
    have hhalf : (r + cutoff) / 2 < 2 ^ b' := by
      rw [pow_succ] at hr
      omega
    rw [Nat.mod_eq_of_lt hhalf]
    have hge : ¬((r + cutoff) / 2 < cutoff) := by omega
    rw [if_neg hge]
    simp only [readBit]
    have hfull : 2 * ((r + cutoff) / 2) + bitVal (decide ((r + cutoff) % 2 = 1)) =
        r + cutoff := by
      have : bitVal (decide ((r + cutoff) % 2 = 1)) = (r + cutoff) % 2 := by
        rcases Nat.mod_two_eq_zero_or_one (r + cutoff) with hm | hm <;>
          simp [bitVal, hm]
      omega
    rw [hfull]
    simp only [Nat.add_sub_cancel]

theorem takeWhile_replicate_false (q : Nat) (t : List Bool) :
    (List.replicate q false ++ true :: t).takeWhile (fun x => !x) =
      List.replicate q false := by
  induction q with
  | zero => simp [List.takeWhile]
  | succ q ih => simpa [List.replicate_succ, List.takeWhile] using ih

theorem drop_replicate_false (q : Nat) (t : List Bool) :
    (List.replicate q false ++ true :: t).drop (q + 1) = t := by
  induction q with
  | zero => simp
  | succ q ih => simpa [List.replicate_succ] using ih

theorem decSym_encSymPlain (m b cutoff u : Nat) (rest : List Bool)
    (hm : 1 ≤ m) (hb : 1 ≤ b) (hcut : cutoff ≤ 2 ^ (b - 1))
    (hmc : m + cutoff ≤ 2 ^ b) (hq : u / m ≤ 100000) :
    decSym m b cutoff (encSymPlain m b cutoff u ++ rest) = .ok u rest := by
  rw [encSymPlain, decSym]
  simp only [List.append_assoc, List.cons_append]
  rw [takeWhile_replicate_false, List.length_replicate]
  rw [if_neg (by omega)]
  have hlen : ¬(u / m = (List.replicate (u / m) false ++
      true :: (encTB b cutoff (u % m) ++ rest)).length) := by
    simp only [List.length_append, List.length_replicate, List.length_cons]
    omega
  rw [if_neg hlen, drop_replicate_false]
  have hrm : u % m < m := Nat.mod_lt _ (by omega)
  rw [decTB_encTB b cutoff (u % m) rest hb hcut (by omega)]
  simp [Nat.div_add_mod']

theorem encSymClamped_eq_plain (m b cutoff u : Nat) (hq : u / m ≤ 10000) :
    encSymClamped m b cutoff u = encSymPlain m b cutoff u := by
  rw [encSymClamped, encSymPlain, Nat.min_eq_left hq]

theorem decSym_encSymClamped (m b cutoff u : Nat) (rest : List Bool)
    (hm : 1 ≤ m) (hb : 1 ≤ b) (hcut : cutoff ≤ 2 ^ (b - 1))
    (hmc : m + cutoff ≤ 2 ^ b) (hq : u / m ≤ 10000) :
    decSym m b cutoff (encSymClamped m b cutoff u ++ rest) = .ok u rest := by
  rw [encSymClamped_eq_plain m b cutoff u hq]
  exact decSym_encSymPlain m b cutoff u rest hm hb hcut hmc (by omega)

theorem reconsGo_residsGo (order numCh : Nat) (xs : List Int) :
    ∀ ch hs, (∀ x ∈ xs, -32768 ≤ x ∧ x ≤ 32767) →
    reconsGo order numCh ch hs (residsGo order numCh ch hs xs).1 =
      (xs, (residsGo order numCh ch hs xs).2) := by
  induction xs with
  | nil => intro ch hs _; rfl
  | cons x xs ih =>
    intro ch hs hr
    have hx := hr x (by simp)
    simp only [residsGo, reconsGo]
    have hp : wrap16 (computePrediction order (hs.getD ch (0, 0, 0)) +
        (x - computePrediction order (hs.getD ch (0, 0, 0)))) = x := by
      rw [show computePrediction order (hs.getD ch (0, 0, 0)) +
        (x - computePrediction order (hs.getD ch (0, 0, 0))) = x by ring]
      exact wrap16_eq_self x hx.1 hx.2
    rw [hp]
    rw [ih ((ch + 1) % numCh) _ (fun y hy => hr y (by simp [hy]))]

theorem residsGo_length (order numCh : Nat) (xs : List Int) :
    ∀ ch hs, (residsGo order numCh ch hs xs).1.length = xs.length := by
  induction xs with
  | nil => intro ch hs; rfl
  | cons x xs ih => intro ch hs; simp only [residsGo, List.length_cons, ih]

theorem reconsGo_length (order numCh : Nat) (es : List Int) :
    ∀ ch hs, (reconsGo order numCh ch hs es).1.length = es.length := by
  induction es with
  | nil => intro ch hs; rfl
  | cons e es ih => intro ch hs; simp only [reconsGo, List.length_cons, ih]

theorem wrap16_add_right (a b : Int) : wrap16 (a + wrap16 b) = wrap16 (a + b) := by
  unfold wrap16; omega

theorem midSideInv_midSideFwd :
    ∀ l : List Int, (∀ x ∈ l, -32768 ≤ x ∧ x ≤ 32767) →
      midSideInv (midSideFwd l) = l
  | [], _ => rfl
  | [_], _ => rfl
  | a :: b :: rest, h => by
    have ha := h a (by simp)
    have hb := h b (by simp)
    simp only [midSideFwd, midSideInv]
    have hR : wrap16 (wrap16 (b + Int.fdiv (wrap16 (a - b)) 2) -
        Int.fdiv (wrap16 (a - b)) 2) = b := by
      rw [wrap16_sub_left,
        show b + Int.fdiv (wrap16 (a - b)) 2 - Int.fdiv (wrap16 (a - b)) 2 = b
          by ring]
      exact wrap16_eq_self b hb.1 hb.2
    rw [hR]
    have hL : wrap16 (b + wrap16 (a - b)) = a := by
      rw [wrap16_add_right, show b + (a - b) = a by ring]
      exact wrap16_eq_self a ha.1 ha.2
    rw [hL, midSideInv_midSideFwd rest (fun y hy => h y (by simp [hy]))]

theorem decSyms_encSymClamped (m b cutoff : Nat)
    (hm : 1 ≤ m) (hb : 1 ≤ b) (hcut : cutoff ≤ 2 ^ (b - 1))
    (hmc : m + cutoff ≤ 2 ^ b) :
    ∀ (us : List Nat) (rest : List Bool), (∀ u ∈ us, u / m ≤ 10000) →
      decSyms m b cutoff us.length
        ((us.map (encSymClamped m b cutoff)).flatten ++ rest) =
        (us, rest, false)
  | [], rest, _ => rfl
  | u :: us, rest, hq => by
    simp only [List.map_cons, List.flatten_cons, List.length_cons,
      List.append_assoc, decSyms]
    rw [decSym_encSymClamped m b cutoff u _ hm hb hcut hmc (hq u (by simp))]
    dsimp only
    rw [decSyms_encSymClamped m b cutoff hm hb hcut hmc us rest
      (fun v hv => hq v (by simp [hv]))]

theorem chunkGo_flatten (k : Nat) (hk : 1 ≤ k) :
    ∀ (fuel : Nat) (xs : List α), xs.length ≤ fuel →
      (chunkGo k fuel xs).flatten = xs
  | 0, [], _ => rfl
  | 0, _ :: _, h => by simp at h
  | _ + 1, [], _ => rfl
  | fuel + 1, x :: xs, h => by
    rw [chunkGo, if_neg (by omega), List.flatten_cons,
      chunkGo_flatten k hk fuel ((x :: xs).drop k)
        (by simp only [List.length_drop]; simp at h ⊢; omega),
      List.take_append_drop]

theorem chunkList_flatten (k : Nat) (hk : 1 ≤ k) (xs : List α) :
    (chunkList k xs).flatten = xs :=
  chunkGo_flatten k hk xs.length xs le_rfl

theorem chunkGo_nonempty (k : Nat) :
    ∀ (fuel : Nat) (xs : List α), ∀ blk ∈ chunkGo k fuel xs, blk ≠ []
  | 0, _ => by simp [chunkGo]
  | _ + 1, [] => by simp [chunkGo]
  | fuel + 1, x :: xs => by
    by_cases hk : k = 0
    · simp [chunkGo, hk]
    · rw [chunkGo, if_neg hk]
      intro blk hblk
      rcases List.mem_cons.mp hblk with h | h
      · subst h
        simp only [ne_eq, List.take_eq_nil_iff]
        push_neg
        exact ⟨by omega, by simp⟩
      · exact chunkGo_nonempty k fuel _ blk h

theorem chunkGo_length_le (k : Nat) :
    ∀ (fuel : Nat) (xs : List α), ∀ blk ∈ chunkGo k fuel xs, blk.length ≤ k
  | 0, _ => by simp [chunkGo]
  | _ + 1, [] => by simp [chunkGo]
  | fuel + 1, x :: xs => by
    by_cases hk : k = 0
    · simp [chunkGo, hk]
    · rw [chunkGo, if_neg hk]
      intro blk hblk
      rcases List.mem_cons.mp hblk with h | h
      · subst h; simp
      · exact chunkGo_length_le k fuel _ blk h

theorem midSideFwd_length :
    ∀ l : List Int, (midSideFwd l).length = l.length
  | [] => rfl
  | [_] => rfl
  | _ :: _ :: rest => by
    simp only [midSideFwd, List.length_cons, midSideFwd_length rest]

theorem midSideFwd_range :
    ∀ l : List Int, (∀ x ∈ l, -32768 ≤ x ∧ x ≤ 32767) →
      ∀ y ∈ midSideFwd l, -32768 ≤ y ∧ y ≤ 32767
  | [], _ => by simp [midSideFwd]
  | [x], h => by simpa [midSideFwd] using h x (by simp)
  | a :: b :: rest, h => by
    intro y hy
    simp only [midSideFwd, List.mem_cons] at hy
    rcases hy with rfl | rfl | hy
    · exact wrap16_range _
    · exact wrap16_range _
    · exact midSideFwd_range rest (fun z hz => h z (by simp [hz])) y hy

/-- Golomb-parameter facts used by both codecs: for `2 ≤ m < 2^16`,
`b = ceilLog2 m` and `cutoff = 2^b - m` satisfy the truncated-binary
side conditions. -/
theorem golombParams (m : Nat) (hm : 2 ≤ m) (hm16 : m < 2 ^ 16) :
    1 ≤ ceilLog2 m ∧ 2 ^ ceilLog2 m - m ≤ 2 ^ (ceilLog2 m - 1) ∧
      m + (2 ^ ceilLog2 m - m) ≤ 2 ^ ceilLog2 m := by
  have h64 : m ≤ 2 ^ 64 := by
    have : (2:Nat) ^ 16 ≤ 2 ^ 64 := Nat.pow_le_pow_right (by omega) (by omega)
    omega
  have hb := ceilLog2_pos m hm h64
  have hlow := ceilLog2_pred_lt m hm h64
  have hle := (ceilLog2_spec m (by omega) h64).1
  refine ⟨hb, ?_, by omega⟩
  have h2 : 2 ^ ceilLog2 m = 2 * 2 ^ (ceilLog2 m - 1) := by
    obtain ⟨b', hb'⟩ : ∃ b', ceilLog2 m = b' + 1 := ⟨ceilLog2 m - 1, by omega⟩
    rw [hb']
    simp [pow_succ]
    ring
  omega

theorem sum_lengths_ge_count (blocks : List (List α))
    (h : ∀ blk ∈ blocks, blk ≠ []) :
    blocks.length ≤ (blocks.map List.length).sum := by
  induction blocks with
  | nil => simp
  | cons blk blks ih =>
    have h1 : 1 ≤ blk.length := by
      have := h blk (by simp)
      cases blk with
      | nil => simp at this
      | cons _ _ => simp
    simp only [List.map_cons, List.sum_cons, List.length_cons]
    have := ih (fun b hb => h b (by simp [hb]))
    omega

set_option maxHeartbeats 2000000 in
/-- Master induction for the lossless-audio round trip: with a fixed
`2 ≤ m < 2^16`, decoding the encoder's block stream reproduces the original
blocks, provided every residual's (capped) quotient fits in 10000 zeros. -/
theorem decodeLoop_audioEncBlocks (estimate : Nat → Nat → Nat)
    (order numCh m : Nat) (hm : 2 ≤ m) (hm16 : m < 2 ^ 16) :
    ∀ (blocks : List (List Int)) (hs : List Hist)
      (fuel processed total : Nat) (tail : List Bool) (acc : List Int),
      (∀ blk ∈ blocks, blk ≠ []) →
      (∀ blk ∈ blocks, blk.length < 2 ^ 32) →
      (∀ blk ∈ blocks, ∀ x ∈ blk, -32768 ≤ x ∧ x ≤ 32767) →
      (∀ r ∈ audioResiduals order numCh hs blocks, mapToUnsigned r / m ≤ 10000) →
      processed + (blocks.map List.length).sum = total →
      blocks.length ≤ fuel →
      decodeLoop order numCh total fuel processed hs
        (audioEncBlocks estimate order numCh m hs blocks ++ tail) acc =
        some (acc ++ blocks.flatten) := by
  intro blocks
  induction blocks with
  | nil =>
    intro hs fuel processed total tail acc _ _ _ _ hsum _
    have hp : total ≤ processed := by simp at hsum; omega
    cases fuel <;> simp [decodeLoop, audioEncBlocks, hp]
  | cons blk blks ih =>
    intro hs fuel processed total tail acc hne hlen32 hrange hq hsum hfuel
    obtain ⟨fuel', rfl⟩ : ∃ f, fuel = f + 1 := ⟨fuel - 1, by simp at hfuel; omega⟩
    -- names for the per-block data
    set encCh := (if numCh = 2 then midSideFwd blk else blk) with hencCh
    have hencLen : encCh.length = blk.length := by
      rw [hencCh]
      by_cases h2 : numCh = 2 <;> simp [h2, midSideFwd_length]
    have hencRange : ∀ x ∈ encCh, -32768 ≤ x ∧ x ≤ 32767 := by
      rw [hencCh]
      by_cases h2 : numCh = 2 <;> simp only [h2, if_true, if_false]
      · exact midSideFwd_range blk (hrange blk (by simp))
      · exact hrange blk (by simp)
    set pr := residsGo order numCh 0 hs encCh with hpr
    have hL : pr.1.length = blk.length := by
      rw [hpr, residsGo_length, hencLen]
    have hblkpos : 1 ≤ blk.length := by
      have := hne blk (by simp)
      cases blk with
      | nil => simp at this
      | cons _ _ => simp
    have hproc : ¬(total ≤ processed) := by
      simp only [List.map_cons, List.sum_cons] at hsum
      omega
    -- unfold one encoder block and one decoder iteration
    rw [audioEncBlocks]
    simp only [decodeLoop, hproc, if_false]
    rw [← hencCh, ← hpr]
    have hm0 : (if m = 0 then audioAdaptiveM estimate pr.1 else m) = m := by
      rw [if_neg (by omega)]
    rw [hm0]
    simp only [List.append_assoc]
    have hmmod : m % 2 ^ 16 = m := Nat.mod_eq_of_lt hm16
    have hLmod : pr.1.length % 2 ^ 32 = pr.1.length :=
      Nat.mod_eq_of_lt (by rw [hL]; exact hlen32 blk (by simp))
    rw [readN_natBits]
    dsimp only
    rw [readN_natBits]
    dsimp only
    rw [hmmod, hLmod]
    rw [if_neg (by rw [hL]; omega)]
    obtain ⟨hb, hcut, hmc⟩ := golombParams m hm hm16
    have hflat : (pr.1.map (fun r =>
        encSymClamped m (ceilLog2 m) (2 ^ ceilLog2 m - m) (mapToUnsigned r))).flatten =
        ((pr.1.map mapToUnsigned).map
          (encSymClamped m (ceilLog2 m) (2 ^ ceilLog2 m - m))).flatten := by
      rw [List.map_map]
      rfl
    have hqblk : ∀ u ∈ pr.1.map mapToUnsigned, u / m ≤ 10000 := by
      intro u hu
      rcases List.mem_map.mp hu with ⟨r, hr, rfl⟩
      refine hq r ?_
      rw [audioResiduals]
      rw [← hencCh, ← hpr]
      exact List.mem_append.mpr (Or.inl hr)
    have hcount : pr.1.length = (pr.1.map mapToUnsigned).length := by
      rw [List.length_map]
    rw [hflat, hcount,
      decSyms_encSymClamped m (ceilLog2 m) (2 ^ ceilLog2 m - m) (by omega) hb hcut hmc
        (pr.1.map mapToUnsigned) _ hqblk]
    dsimp only
    rw [if_neg (by simp)]
    have hsigned : (pr.1.map mapToUnsigned).map mapToSigned = pr.1 := by
      rw [List.map_map]
      have : (mapToSigned ∘ mapToUnsigned) = id := by
        funext n
        exact mapToSigned_mapToUnsigned n
      rw [this, List.map_id]
    rw [hsigned]
    have hrec := reconsGo_residsGo order numCh encCh 0 hs hencRange
    rw [← hpr] at hrec
    rw [hrec]
    have hout : (if numCh = 2 then midSideInv encCh else encCh) = blk := by
      rw [hencCh]
      by_cases h2 : numCh = 2 <;> simp only [h2, if_true, if_false]
      exact midSideInv_midSideFwd blk (hrange blk (by simp))
    rw [hout, hencLen]
    have hres : ∀ r ∈ audioResiduals order numCh pr.2 blks,
        mapToUnsigned r / m ≤ 10000 := by
      intro r hr
      refine hq r ?_
      rw [audioResiduals, ← hencCh, ← hpr]
      exact List.mem_append.mpr (Or.inr hr)
    rw [ih pr.2 fuel' (processed + blk.length) total tail (acc ++ blk)
      (fun b hb' => hne b (by simp [hb'])) (fun b hb' => hlen32 b (by simp [hb']))
      (fun b hb' => hrange b (by simp [hb'])) hres
      (by simp only [List.map_cons, List.sum_cons] at hsum; omega)
      (by simp at hfuel; omega)]
    simp

theorem computePrediction_range (order : Nat) (h : Hist) :
    -32768 ≤ computePrediction order h ∧ computePrediction order h ≤ 32767 := by
  unfold computePrediction
  constructor
  · exact le_max_left _ _
  · exact max_le (by norm_num) (min_le_left _ _)

theorem residsGo_bound (order numCh : Nat) :
    ∀ (xs : List Int) (ch : Nat) (hs : List Hist),
      (∀ x ∈ xs, -32768 ≤ x ∧ x ≤ 32767) →
      ∀ r ∈ (residsGo order numCh ch hs xs).1, -65535 ≤ r ∧ r ≤ 65535
  | [], _, _, _ => by simp [residsGo]
  | x :: xs, ch, hs, hr => by
    intro r hmem
    simp only [residsGo, List.mem_cons] at hmem
    rcases hmem with rfl | hmem
    · have hx := hr x (by simp)
      have hp := computePrediction_range order (hs.getD ch (0, 0, 0))
      omega
    · exact residsGo_bound order numCh xs ((ch + 1) % numCh) _
        (fun y hy => hr y (by simp [hy])) r hmem

theorem audioResiduals_bound (order numCh : Nat) :
    ∀ (blocks : List (List Int)) (hs : List Hist),
      (∀ blk ∈ blocks, ∀ x ∈ blk, -32768 ≤ x ∧ x ≤ 32767) →
      ∀ r ∈ audioResiduals order numCh hs blocks, -65535 ≤ r ∧ r ≤ 65535
  | [], _, _ => by simp [audioResiduals]
  | blk :: blks, hs, hrange => by
    intro r hmem
    rw [audioResiduals] at hmem
    rcases List.mem_append.mp hmem with hmem | hmem
    · refine residsGo_bound order numCh _ 0 hs ?_ r hmem
      by_cases h2 : numCh = 2 <;> simp only [h2, if_true, if_false]
      · exact midSideFwd_range blk (hrange blk (by simp))
      · exact hrange blk (by simp)
    · exact audioResiduals_bound order numCh blks _
        (fun b hb => hrange b (by simp [hb])) r hmem

theorem mapToUnsigned_le (r : Int) (h1 : -65535 ≤ r) (h2 : r ≤ 65535) :
    mapToUnsigned r ≤ 131070 := by
  unfold mapToUnsigned
  by_cases h : 0 ≤ r <;> simp only [h, if_true, if_false] <;> omega

/-- C1 (amended): `decode(encode(wav))` equals `wav` sample-for-sample for
every predictor order, channel count 1 or 2, block size ≥ 1 and fixed Golomb
parameter `2 ≤ m < 2^16`, provided every residual's quotient fits under the
encoder's 10000-zero cap — which holds automatically whenever `m ≥ 14`, in
particular for the claimed values `m ∈ {32, 256}`.  The claim's `m = 1` (and
small adaptive `m`) cases fail: see the counterexample. -/
theorem C1_audio_roundtrip_amended (estimate : Nat → Nat → Nat)
    (rate channels frames blockSamples order m : Nat) (samples : List Int)
    (hch : channels = 1 ∨ channels = 2)
    (hlen : samples.length = frames * channels)
    (hblk : 1 ≤ blockSamples)
    (hcnt : blockSamples * channels < 2 ^ 32)
    (hfr : frames < 2 ^ 64)
    (hord : order < 2 ^ 8)
    (hm : 2 ≤ m) (hm16 : m < 2 ^ 16)
    (hrange : ∀ x ∈ samples, -32768 ≤ x ∧ x ≤ 32767)
    (hq : 14 ≤ m ∨
      ∀ r ∈ audioResiduals order channels (List.replicate channels (0, 0, 0))
        (chunkList (blockSamples * channels) samples),
        mapToUnsigned r / m ≤ 10000) :
    decodeGolombToWav (encodeWavWithGolomb estimate rate channels frames
      blockSamples order m samples) = some samples := by
  have hch1 : 1 ≤ channels := by rcases hch with h | h <;> omega
  have hk : 1 ≤ blockSamples * channels := by
    have := Nat.mul_le_mul hblk hch1
    omega
  have hflat : (chunkList (blockSamples * channels) samples).flatten = samples :=
    chunkList_flatten _ hk samples
  have hbne : ∀ blk ∈ chunkList (blockSamples * channels) samples, blk ≠ [] :=
    fun blk h => chunkGo_nonempty _ _ _ blk h
  have hble : ∀ blk ∈ chunkList (blockSamples * channels) samples,
      blk.length < 2 ^ 32 :=
    fun blk h => lt_of_le_of_lt (chunkGo_length_le _ _ _ blk h) hcnt
  have hbrange : ∀ blk ∈ chunkList (blockSamples * channels) samples,
      ∀ x ∈ blk, -32768 ≤ x ∧ x ≤ 32767 := by
    intro blk hb x hx
    refine hrange x ?_
    rw [← hflat]
    exact List.mem_flatten.mpr ⟨blk, hb, hx⟩
  have hq' : ∀ r ∈ audioResiduals order channels
      (List.replicate channels (0, 0, 0))
      (chunkList (blockSamples * channels) samples),
      mapToUnsigned r / m ≤ 10000 := by
    rcases hq with h14 | hq
    · intro r hr
      have hb := audioResiduals_bound order channels _ _ hbrange r hr
      have hu : mapToUnsigned r ≤ 131070 := mapToUnsigned_le r hb.1 hb.2
      calc mapToUnsigned r / m ≤ mapToUnsigned r / 14 :=
            Nat.div_le_div_left h14 (by omega)
        _ ≤ 131070 / 14 := Nat.div_le_div_right hu
        _ ≤ 10000 := by norm_num
    · exact hq
  have htot : 0 + ((chunkList (blockSamples * channels) samples).map
      List.length).sum = frames * channels := by
    have hlens := congrArg List.length hflat
    rw [List.length_flatten] at hlens
    omega
  have hcount : (chunkList (blockSamples * channels) samples).length ≤
      frames * channels + 1 := by
    have h1 := sum_lengths_ge_count _ hbne
    omega
  unfold encodeWavWithGolomb decodeGolombToWav pad8
  simp only [List.append_assoc]
  rw [readN_natBits]
  dsimp only
  rw [readN_natBits]
  dsimp only
  rw [readN_natBits]
  dsimp only
  rw [readN_natBits]
  dsimp only
  rw [readN_natBits]
  dsimp only
  have hchmod : channels % 2 ^ 16 = channels :=
    Nat.mod_eq_of_lt (by rcases hch with h | h <;> simp [h])
  have hfrmod : frames % 2 ^ 64 = frames := Nat.mod_eq_of_lt hfr
  have hordmod : order % 2 ^ 8 = order := Nat.mod_eq_of_lt hord
  rw [hchmod, hfrmod, hordmod]
  rw [decodeLoop_audioEncBlocks estimate order channels m hm hm16
    (chunkList (blockSamples * channels) samples)
    (List.replicate channels (0, 0, 0)) (frames * channels + 1) 0
    (frames * channels) _ [] hbne hble hbrange hq' htot hcount]
  rw [List.nil_append, hflat]

set_option maxRecDepth 40000 in
/-- C1 counterexample: with `m = 1` (a value the claim includes), block size
512, predictor order 0, mono, the encoder emits no remainder bits while the
decoder consumes one per symbol, so the stream desynchronises: the two-sample
input `[1, 1]` decodes to `[1, -1]`. -/
theorem C1_roundtrip_fails_for_m1 :
    decodeGolombToWav (encodeWavWithGolomb (fun _ _ => 0) 44100 1 2 512 0 1
      [1, 1]) ≠ some [1, 1] := by decide

/-- C1 witness: a stereo, order-3, `m = 32` instance of the amended round
trip, exercising the extreme pair `(32767, -32768)`. -/
theorem C1_audio_roundtrip_witness :
    decodeGolombToWav (encodeWavWithGolomb (fun _ _ => 0) 8000 2 3 2 3 32
      [5, -7, 32767, -32768, 100, 200]) =
      some [5, -7, 32767, -32768, 100, 200] :=
  C1_audio_roundtrip_amended (fun _ _ => 0) 8000 2 3 2 3 32
    [5, -7, 32767, -32768, 100, 200]
    (Or.inr rfl) (by decide) (by decide) (by decide) (by decide) (by decide)
    (by decide) (by decide) (by decide) (Or.inl (by decide))

theorem tdiv2_bounds (d : Int) (h1 : -510 ≤ d) (h2 : d ≤ 510) :
    -255 ≤ Int.tdiv d 2 ∧ Int.tdiv d 2 ≤ 255 := by
  rcases le_or_lt 0 d with h | h
  · rw [Int.tdiv_eq_ediv h (by omega)]
    omega
  · have hneg : d = -(-d) := by ring
    rw [hneg, Int.neg_tdiv, Int.tdiv_eq_ediv (by omega) (by omega)]
    omega

theorem predict_range (p a b c : Nat) (ha : a ≤ 255) (hb : b ≤ 255)
    (hc : c ≤ 255) : -255 ≤ predict p a b c ∧ predict p a b c ≤ 510 := by
  have ha' : (0 : Int) ≤ a := by omega
  have hb' : (0 : Int) ≤ b := by omega
  have hc' : (0 : Int) ≤ c := by omega
  have ha2 : (a : Int) ≤ 255 := by omega
  have hb2 : (b : Int) ≤ 255 := by omega
  have hc2 : (c : Int) ≤ 255 := by omega
  match p with
  | 0 => constructor <;> simp [predict]
  | 1 => simp only [predict]; omega
  | 2 => simp only [predict]; omega
  | 3 => simp only [predict]; omega
  | 4 => simp only [predict]; omega
  | 5 =>
    have := tdiv2_bounds ((b : Int) - c) (by omega) (by omega)
    simp only [predict]; omega
  | 6 =>
    have := tdiv2_bounds ((a : Int) - c) (by omega) (by omega)
    simp only [predict]; omega
  | 7 =>
    have := tdiv2_bounds ((a : Int) + b) (by omega) (by omega)
    simp only [predict]; omega
  | 8 =>
    simp only [predict]
    split_ifs <;> omega
  | n + 9 => constructor <;> simp [predict]

theorem pixelAt_le (pixels : List Nat) (i : Nat)
    (h : ∀ x ∈ pixels, x ≤ 255) : pixelAt pixels i ≤ 255 := by
  unfold pixelAt
  rcases lt_or_le i pixels.length with hi | hi
  · rw [List.getD_eq_getElem pixels 0 hi]
    exact h _ (List.getElem_mem hi)
  · rw [List.getD_eq_default pixels 0 hi]
    omega

theorem imageResidualAt_bounds (pixels : List Nat) (width p i : Nat)
    (h : ∀ x ∈ pixels, x ≤ 255) :
    -510 ≤ imageResidualAt pixels width p i ∧
      imageResidualAt pixels width p i ≤ 510 := by
  have h0 := pixelAt_le pixels i h
  have h1 : (neighborsOf pixels width i).1 ≤ 255 := by
    unfold neighborsOf
    dsimp only
    split_ifs
    · exact pixelAt_le pixels _ h
    · omega
  have h2 : (neighborsOf pixels width i).2.1 ≤ 255 := by
    unfold neighborsOf
    dsimp only
    split_ifs
    · exact pixelAt_le pixels _ h
    · omega
  have h3 : (neighborsOf pixels width i).2.2 ≤ 255 := by
    unfold neighborsOf
    dsimp only
    split_ifs
    · exact pixelAt_le pixels _ h
    · omega
  have hp := predict_range p _ _ _ h1 h2 h3
  unfold imageResidualAt
  omega

theorem mapToUnsigned_le_of_bounds (r : Int) (lo hi : Nat)
    (h1 : -(lo : Int) ≤ r) (h2 : r ≤ hi) :
    mapToUnsigned r ≤ max (2 * hi) (2 * lo - 1) := by
  unfold mapToUnsigned
  by_cases h : 0 ≤ r <;> simp only [h, if_true, if_false] <;> omega

/-- Golomb-parameter facts for the image coder, whose `b` is forced to at
least 1 after `cutoff` was computed from the unfixed value: they hold for
every `1 ≤ m ≤ 255`, including `m = 1`. -/
theorem golombParamsImage (m : Nat) (h1 : 1 ≤ m) (h2 : m ≤ 255) :
    1 ≤ max (ceilLog2 m) 1 ∧
      2 ^ ceilLog2 m - m ≤ 2 ^ (max (ceilLog2 m) 1 - 1) ∧
      m + (2 ^ ceilLog2 m - m) ≤ 2 ^ max (ceilLog2 m) 1 := by
  rcases Nat.lt_or_ge m 2 with hm | hm
  · have hm1 : m = 1 := by omega
    subst hm1
    refine ⟨by decide, ?_, by decide⟩
    have : ceilLog2 1 = 0 := by decide
    rw [this]
    decide
  · obtain ⟨hb, hcut, hmc⟩ := golombParams m hm (by omega)
    have hmax : max (ceilLog2 m) 1 = ceilLog2 m := Nat.max_eq_left hb
    rw [hmax]
    exact ⟨hb, hcut, hmc⟩

theorem getD_take (l : List Nat) (n j : Nat) (hj : j < n) :
    (l.take n).getD j 0 = l.getD j 0 := by
  rw [List.getD_eq_getElem?_getD, List.getD_eq_getElem?_getD,
    List.getElem?_take, if_pos hj]

theorem take_append_getD (l : List Nat) (n : Nat) (hn : n < l.length) :
    l.take n ++ [l.getD n 0] = l.take (n + 1) := by
  rw [List.take_succ, List.getD_eq_getElem l 0 hn,
    List.getElem?_eq_getElem hn]
  rfl

theorem neighborsOf_take (pixels : List Nat) (width i : Nat)
    (hw : 1 ≤ width) :
    neighborsOf (pixels.take i) width i = neighborsOf pixels width i := by
  have hsplit : i / width * width + i % width = i := Nat.div_add_mod' i width
  have hqw : 0 < i / width →
      (i / width - 1) * width + width = i / width * width := by
    intro h
    have h2 : i / width - 1 + 1 = i / width := by omega
    calc (i / width - 1) * width + width = (i / width - 1 + 1) * width := by ring
      _ = i / width * width := by rw [h2]
  unfold neighborsOf
  dsimp only
  congr 1
  · split_ifs with h
    · exact getD_take pixels i _ (by omega)
    · rfl
  congr 1
  · split_ifs with h
    · have := hqw h
      exact getD_take pixels i _ (by omega)
    · rfl
  · split_ifs with h
    · have := hqw h.2
      have hr : 0 < i % width := h.1
      exact getD_take pixels i _ (by omega)
    · rfl

theorem imageDecPixels_spec (pixels : List Nat) (width predictor bm : Nat)
    (hw : 1 ≤ width) (hpix : ∀ x ∈ pixels, x ≤ 255)
    (hbm1 : 1 ≤ bm) (hbm2 : bm ≤ 255) :
    ∀ (cnt n : Nat) (rest : List Bool), n + cnt ≤ pixels.length →
      imageDecPixels bm (max (ceilLog2 bm) 1) (2 ^ ceilLog2 bm - bm) predictor
        width cnt (pixels.take n)
        ((((List.range' n cnt).map
            (imageResidualAt pixels width predictor)).map
          (fun r => encSymPlain bm (max (ceilLog2 bm) 1)
            (2 ^ ceilLog2 bm - bm) (mapToUnsigned r))).flatten ++ rest) =
        some (pixels.take (n + cnt), rest)
  | 0, n, rest, _ => by
    simp [imageDecPixels]
  | cnt + 1, n, rest, h => by
    obtain ⟨hb, hcut, hmc⟩ := golombParamsImage bm hbm1 hbm2
    have hres := imageResidualAt_bounds pixels width predictor n hpix
    have hu : mapToUnsigned (imageResidualAt pixels width predictor n) ≤ 1020 := by
      have := mapToUnsigned_le_of_bounds
        (imageResidualAt pixels width predictor n) 510 510 (by omega) (by omega)
      omega
    have hq : mapToUnsigned (imageResidualAt pixels width predictor n) / bm
        ≤ 100000 := le_trans (Nat.div_le_self _ _) (by omega)
    rw [List.range'_succ, List.map_cons, List.map_cons, List.flatten_cons,
      List.append_assoc, imageDecPixels]
    rw [decSym_encSymPlain bm _ _ _ _ hbm1 hb hcut hmc hq]
    dsimp only
    have hlen : (pixels.take n).length = n := by
      rw [List.length_take]
      omega
    rw [hlen, neighborsOf_take pixels width n hw, mapToSigned_mapToUnsigned]
    have hpixel : predict predictor (neighborsOf pixels width n).1
        (neighborsOf pixels width n).2.1 (neighborsOf pixels width n).2.2 +
        imageResidualAt pixels width predictor n =
        (pixelAt pixels n : Int) := by
      unfold imageResidualAt
      ring
    rw [hpixel]
    have hple : pixelAt pixels n ≤ 255 := pixelAt_le pixels n hpix
    have hclamp : (max 0 (min 255 (pixelAt pixels n : Int))).toNat =
        pixelAt pixels n := by omega
    rw [hclamp,
      show List.take n pixels ++ [pixelAt pixels n] = List.take (n + 1) pixels
        from take_append_getD pixels n (by omega)]
    rw [imageDecPixels_spec pixels width predictor bm hw hpix hbm1 hbm2
      cnt (n + 1) rest (by omega)]
    have harith : n + 1 + cnt = n + (cnt + 1) := by omega
    rw [harith]

theorem imageDecBlocks_spec (estimate : Nat → Nat → Nat)
    (pixels : List Nat) (width predictor total m blockSize : Nat)
    (hw : 1 ≤ width) (hpix : ∀ x ∈ pixels, x ≤ 255)
    (hbs : 1 ≤ blockSize) (hlen : pixels.length = total)
    (hm : (1 ≤ m ∧ m ≤ 255) ∨
      (m = 0 ∧ ∀ l : List Int, 1 ≤ imageAdaptiveM estimate l ∧
        imageAdaptiveM estimate l ≤ 255)) :
    ∀ (fuel start : Nat) (rest : List Bool), total - start ≤ fuel →
      start ≤ total →
      imageDecBlocks predictor m width total blockSize fuel (pixels.take start)
        (imageEncBlocksGo estimate pixels width predictor m blockSize total fuel
          start ++ rest) =
        some pixels := by
  intro fuel
  induction fuel with
  | zero =>
    intro start rest hfuel hstart
    have hse : start = total := by omega
    subst hse
    rw [imageDecBlocks]
    rw [if_pos (by rw [List.length_take]; omega)]
    rw [List.take_of_length_le (by omega)]
  | succ fuel ih =>
    intro start rest hfuel hstart
    by_cases hdone : total ≤ start
    · rw [imageEncBlocksGo, if_pos hdone, imageDecBlocks]
      rw [if_pos (by rw [List.length_take]; omega)]
      rw [List.take_of_length_le (by omega)]
    · have hlen' : (pixels.take start).length = start := by
        rw [List.length_take]; omega
      have hcur1 : 1 ≤ min blockSize (total - start) := by omega
      have hcurle : start + min blockSize (total - start) ≤ total := by omega
      rw [imageEncBlocksGo, if_neg hdone, imageDecBlocks,
        if_neg (by rw [hlen']; omega)]
      dsimp only
      rw [hlen']
      have hbm : ∀ blk : List Int,
          1 ≤ (if m = 0 then imageAdaptiveM estimate blk else m) ∧
          (if m = 0 then imageAdaptiveM estimate blk else m) ≤ 255 := by
        intro blk
        rcases hm with ⟨h1, h2⟩ | ⟨h1, h2⟩
        · rw [if_neg (by omega)]
          exact ⟨h1, h2⟩
        · rw [if_pos h1]
          exact h2 blk
      have hbm' := hbm ((List.range' start (min blockSize (total - start))).map
        (imageResidualAt pixels width predictor))
      by_cases hm0 : m = 0
      · rw [if_pos hm0] at hbm'
        rw [if_pos hm0, if_pos hm0, if_pos hm0]
        simp only [List.append_assoc]
        rw [readN_natBits, Nat.mod_eq_of_lt (by omega)]
        dsimp only
        rw [if_neg (by omega), imageDecPixels_spec pixels width predictor _ hw
          hpix (by omega) (by omega) _ start _ (by omega)]
        dsimp only
        rw [ih (start + min blockSize (total - start)) rest (by omega)
          (by omega)]
      · rw [if_neg hm0] at hbm'
        rw [if_neg hm0, if_neg hm0, if_neg hm0, List.nil_append]
        simp only [List.append_assoc]
        rw [if_neg (by omega), imageDecPixels_spec pixels width predictor _ hw
          hpix (by omega) (by omega) _ start _ (by omega)]
        dsimp only
        rw [ih (start + min blockSize (total - start)) rest (by omega)
          (by omega)]

/-- C3 (amended): `decode(encode(img))` equals `img` byte-for-byte for every
predictor index, every block size (0 meaning one row), and `m` either fixed
in `[1, 255]` or adaptive with every per-block `m` in `[1, 255]`.  The
claim's unrestricted "fixed `m > 0`" fails: the header stores `m` in 8 bits,
so any fixed `m ≥ 256` is truncated (see the counterexample); likewise the
adaptive estimator's clamp allows `m = 256`, whose 8-bit block header wraps
to 0 and aborts the decoder. -/
theorem C3_image_roundtrip_amended (estimate : Nat → Nat → Nat)
    (width height predictor m blockSize : Nat) (pixels : List Nat)
    (hw : 1 ≤ width) (hw32 : width < 2 ^ 32) (hh32 : height < 2 ^ 32)
    (hpred : predictor < 2 ^ 8)
    (hbs32 : blockSize < 2 ^ 32)
    (hlen : pixels.length = width * height)
    (hpix : ∀ x ∈ pixels, x ≤ 255)
    (hm : (1 ≤ m ∧ m ≤ 255) ∨
      (m = 0 ∧ ∀ l : List Int, 1 ≤ imageAdaptiveM estimate l ∧
        imageAdaptiveM estimate l ≤ 255)) :
    decodeImage (encodeImage estimate width height predictor m blockSize
      pixels) = some pixels := by
  have heff : 1 ≤ (if blockSize = 0 then width else blockSize) := by
    by_cases h : blockSize = 0 <;> simp [h] <;> omega
  have heff32 : (if blockSize = 0 then width else blockSize) < 2 ^ 32 := by
    by_cases h : blockSize = 0 <;> simp [h] <;> omega
  have hm255 : m ≤ 255 := by rcases hm with ⟨_, h⟩ | ⟨h, _⟩ <;> omega
  unfold encodeImage decodeImage pad8
  simp only [List.append_assoc]
  rw [readN_natBits]
  dsimp only
  rw [Nat.mod_eq_of_lt (by norm_num : 0x47494D47 < 2 ^ 32)]
  rw [if_neg (by omega)]
  rw [readN_natBits]
  dsimp only
  rw [readN_natBits]
  dsimp only
  rw [readN_natBits]
  dsimp only
  rw [readN_natBits]
  dsimp only
  rw [readN_natBits]
  dsimp only
  rw [Nat.mod_eq_of_lt hw32, Nat.mod_eq_of_lt hh32, Nat.mod_eq_of_lt hpred,
    Nat.mod_eq_of_lt (show m < 2 ^ 8 by omega), Nat.mod_eq_of_lt heff32]
  rw [if_neg (by omega)]
  exact imageDecBlocks_spec estimate pixels width predictor (width * height) m
    (if blockSize = 0 then width else blockSize) hw hpix heff hlen hm
    (width * height + 1) 0 _ (by omega) (by omega)

set_option maxRecDepth 40000 in
/-- C3 counterexample: with fixed `m = 256` (a value the claim's "fixed
`m > 0`" includes) the 8-bit header field stores `256 mod 256 = 0`; the
decoder then treats the stream as adaptive, reads a garbage block `m` out of
the codeword bits, and fails with EOF on the 1×1 image `[5]`. -/
theorem C3_roundtrip_fails_for_m256 :
    decodeImage (encodeImage (fun _ _ => 0) 1 1 0 256 0 [5]) ≠ some [5] := by
  decide

set_option maxRecDepth 40000 in
/-- C3 witness: a 2×2 image with the JPEG-LS predictor in adaptive mode, the
floating-point estimate abstracted as the constant 7 (every per-block `m`
lands in `[1, 255]` after the clamp), in row blocks. -/
theorem C3_image_roundtrip_witness :
    decodeImage (encodeImage (fun _ _ => 7) 2 2 8 0 0 [7, 5, 0, 9]) =
      some [7, 5, 0, 9] :=
  C3_image_roundtrip_amended (fun _ _ => 7) 2 2 8 0 0 [7, 5, 0, 9]
    (by decide) (by decide) (by decide) (by decide) (by decide) (by decide)
    (by decide)
    (Or.inr ⟨rfl, by
      intro l
      unfold imageAdaptiveM
      dsimp only
      split_ifs <;> norm_num⟩)

/-- C6 (amended): the JPEG-LS mode of `predict` matches the claim at the
borders — top-left corner predicts 0, the rest of the first row predicts `a`,
the rest of the first column predicts `b` — but at interior pixels it tests
the neighbour VALUES: the median-edge formula is used only when both `a ≠ 0`
and `b ≠ 0`; an interior pixel whose left (resp. up) neighbour is the pixel
value 0 predicts `b` (resp. `a`), and 0 when both are 0. -/
theorem C6_jpegls_prediction_amended (pixels : List Nat) (width i : Nat)
    (hw : 1 ≤ width) :
    (i % width = 0 ∧ i / width = 0 →
      predict 8 (neighborsOf pixels width i).1 (neighborsOf pixels width i).2.1
        (neighborsOf pixels width i).2.2 = 0) ∧
    (0 < i % width → i / width = 0 →
      predict 8 (neighborsOf pixels width i).1 (neighborsOf pixels width i).2.1
        (neighborsOf pixels width i).2.2 =
        ((neighborsOf pixels width i).1 : Int)) ∧
    (i % width = 0 → 0 < i / width →
      predict 8 (neighborsOf pixels width i).1 (neighborsOf pixels width i).2.1
        (neighborsOf pixels width i).2.2 =
        ((neighborsOf pixels width i).2.1 : Int)) ∧
    (0 < i % width → 0 < i / width →
      (neighborsOf pixels width i).1 ≠ 0 → (neighborsOf pixels width i).2.1 ≠ 0 →
      predict 8 (neighborsOf pixels width i).1 (neighborsOf pixels width i).2.1
        (neighborsOf pixels width i).2.2 =
        medPredictor (neighborsOf pixels width i).1
          (neighborsOf pixels width i).2.1 (neighborsOf pixels width i).2.2) ∧
    (0 < i % width → 0 < i / width →
      (neighborsOf pixels width i).1 = 0 →
      predict 8 (neighborsOf pixels width i).1 (neighborsOf pixels width i).2.1
        (neighborsOf pixels width i).2.2 =
        (if (neighborsOf pixels width i).2.1 = 0 then 0
          else ((neighborsOf pixels width i).2.1 : Int))) ∧
    (0 < i % width → 0 < i / width →
      (neighborsOf pixels width i).2.1 = 0 → (neighborsOf pixels width i).1 ≠ 0 →
      predict 8 (neighborsOf pixels width i).1 (neighborsOf pixels width i).2.1
        (neighborsOf pixels width i).2.2 =
        ((neighborsOf pixels width i).1 : Int)) := by
  refine ⟨?_, ?_, ?_, ?_, ?_, ?_⟩
  · rintro ⟨hx, hy⟩
    unfold neighborsOf
    simp only [hx, hy, Nat.lt_irrefl, if_neg, predict]
    norm_num
  · intro hx hy
    have hb : (neighborsOf pixels width i).2.1 = 0 := by
      unfold neighborsOf
      simp [hy]
    rw [hb]
    unfold predict
    by_cases ha : (neighborsOf pixels width i).1 = 0
    · simp [ha]
    · simp [ha]
  · intro hx hy
    have ha : (neighborsOf pixels width i).1 = 0 := by
      unfold neighborsOf
      simp [hx]
    rw [ha]
    unfold predict
    by_cases hb : (neighborsOf pixels width i).2.1 = 0
    · simp [hb]
    · simp [hb]
  · intro hx hy ha hb
    unfold predict medPredictor
    rw [if_neg (by tauto), if_neg ha, if_neg hb]
  · intro hx hy ha
    rw [ha]
    unfold predict
    by_cases hb : (neighborsOf pixels width i).2.1 = 0
    · simp [hb]
    · simp [hb]
  · intro hx hy hb ha
    rw [hb]
    unfold predict
    simp [ha]

/-- C6 counterexample: in the 2×2 image `[7, 5, 0, 9]` (width 2) the pixel at
index 3 has `x = 1 > 0` and `y = 1 > 0` with neighbours
`(a, b, c) = (0, 5, 7)`; the code predicts `b = 5` (value-based fallback for
`a = 0`) while the claim's median-edge formula gives
`min(a, b) = 0` since `c ≥ max(a, b)`. -/
theorem C6_jpegls_not_med_at_interior :
    3 % 2 = 1 ∧ 3 / 2 = 1 ∧ neighborsOf [7, 5, 0, 9] 2 3 = (0, 5, 7) ∧
    predict 8 0 5 7 = 5 ∧ medPredictor 0 5 7 = 0 ∧
    predict 8 (neighborsOf [7, 5, 0, 9] 2 3).1 (neighborsOf [7, 5, 0, 9] 2 3).2.1
        (neighborsOf [7, 5, 0, 9] 2 3).2.2 ≠
      medPredictor (neighborsOf [7, 5, 0, 9] 2 3).1
        (neighborsOf [7, 5, 0, 9] 2 3).2.1 (neighborsOf [7, 5, 0, 9] 2 3).2.2 := by
  decide

/-- C6 witness: the amended statement evaluated on the 2×2 image
`[7, 5, 0, 9]` at the interior pixel 3. -/
theorem C6_jpegls_prediction_witness :
    (3 % 2 = 0 ∧ 3 / 2 = 0 →
      predict 8 (neighborsOf [7, 5, 0, 9] 2 3).1
        (neighborsOf [7, 5, 0, 9] 2 3).2.1
        (neighborsOf [7, 5, 0, 9] 2 3).2.2 = 0) ∧
    (0 < 3 % 2 → 3 / 2 = 0 →
      predict 8 (neighborsOf [7, 5, 0, 9] 2 3).1
        (neighborsOf [7, 5, 0, 9] 2 3).2.1
        (neighborsOf [7, 5, 0, 9] 2 3).2.2 =
        ((neighborsOf [7, 5, 0, 9] 2 3).1 : Int)) ∧
    (3 % 2 = 0 → 0 < 3 / 2 →
      predict 8 (neighborsOf [7, 5, 0, 9] 2 3).1
        (neighborsOf [7, 5, 0, 9] 2 3).2.1
        (neighborsOf [7, 5, 0, 9] 2 3).2.2 =
        ((neighborsOf [7, 5, 0, 9] 2 3).2.1 : Int)) ∧
    (0 < 3 % 2 → 0 < 3 / 2 →
      (neighborsOf [7, 5, 0, 9] 2 3).1 ≠ 0 →
      (neighborsOf [7, 5, 0, 9] 2 3).2.1 ≠ 0 →
      predict 8 (neighborsOf [7, 5, 0, 9] 2 3).1
        (neighborsOf [7, 5, 0, 9] 2 3).2.1
        (neighborsOf [7, 5, 0, 9] 2 3).2.2 =
        medPredictor (neighborsOf [7, 5, 0, 9] 2 3).1
          (neighborsOf [7, 5, 0, 9] 2 3).2.1
          (neighborsOf [7, 5, 0, 9] 2 3).2.2) ∧
    (0 < 3 % 2 → 0 < 3 / 2 →
      (neighborsOf [7, 5, 0, 9] 2 3).1 = 0 →
      predict 8 (neighborsOf [7, 5, 0, 9] 2 3).1
        (neighborsOf [7, 5, 0, 9] 2 3).2.1
        (neighborsOf [7, 5, 0, 9] 2 3).2.2 =
        (if (neighborsOf [7, 5, 0, 9] 2 3).2.1 = 0 then 0
          else ((neighborsOf [7, 5, 0, 9] 2 3).2.1 : Int))) ∧
    (0 < 3 % 2 → 0 < 3 / 2 →
      (neighborsOf [7, 5, 0, 9] 2 3).2.1 = 0 →
      (neighborsOf [7, 5, 0, 9] 2 3).1 ≠ 0 →
      predict 8 (neighborsOf [7, 5, 0, 9] 2 3).1
        (neighborsOf [7, 5, 0, 9] 2 3).2.1
        (neighborsOf [7, 5, 0, 9] 2 3).2.2 =
        ((neighborsOf [7, 5, 0, 9] 2 3).1 : Int)) :=
  C6_jpegls_prediction_amended [7, 5, 0, 9] 2 3 (by decide)

/-- C2: the `Golomb` class round trip breaks at `m = 1`, which the claim
explicitly includes.  The encoder handles the `b = 0` corner (its remainder
loop bound is computed in `int`, emitting zero remainder bits), but the
decoder computes the remainder length `b - 1` in `uint32_t`: for `m = 1` it
wraps to `2^32 - 1`, the bounds check `pos + (b - 1) > bits.size()` is
vacuously true, and decode throws "Insufficient bits for remainder" on every
input — here evaluated on `encode(0) = 1`. -/
theorem C2_golomb_decode_m1_fails :
    Golomb.encode 1 0 = [true] ∧
    Golomb.decode 1 (Golomb.encode 1 0) = none := by decide

theorem clampImage_bounds (raw : Nat) :
    1 ≤ (if max 1 (min 256 raw) = 0 then 1 else max 1 (min 256 raw)) ∧
      (if max 1 (min 256 raw) = 0 then 1 else max 1 (min 256 raw)) ≤ 4096 := by
  have h1 : 1 ≤ max 1 (min 256 raw) := le_max_left _ _
  have h2 : max 1 (min 256 raw) ≤ 256 :=
    max_le (by norm_num) (le_trans (min_le_left _ _) (by norm_num))
  refine ⟨?_, ?_⟩ <;> split_ifs
  · exact le_refl 1
  · exact h1
  · norm_num
  · exact le_trans h2 (by norm_num)

set_option maxRecDepth 10000 in
/-- C4: the image encoder's adaptive `m` is clamped (to `[1, 256]`, hence
within the claim's `[1, 4096]` and never 0) for every residual block and
every value of the floating-point estimate, but the audio encoder applies no
clamp at all: on an all-zero residual block (`meanAbs = 0`) the IEEE chain
`ceil(−1/log₂ 0) = ceil(−1/−∞) = 0` makes `blockM = 0`, regardless of the
estimator used on the nonzero path. -/
theorem C4_audio_adaptive_m_unclamped :
    ∀ estimate : Nat → Nat → Nat,
      audioAdaptiveM estimate (List.replicate 512 0) = 0 ∧
      ∀ residuals : List Int, 1 ≤ imageAdaptiveM estimate residuals ∧
        imageAdaptiveM estimate residuals ≤ 4096 := by
  intro estimate
  constructor
  · unfold audioAdaptiveM
    rw [if_neg (by decide), if_pos (by decide)]
  · intro residuals
    unfold imageAdaptiveM
    dsimp only
    exact clampImage_bounds _

/-- C5: the mid/side transform (`side = L − R`, `mid = R + (side >> 1)`, both
narrowed to `int16_t`) followed by its inverse
(`R = mid − (side >> 1)`, `L = R + side`) recovers `(L, R)` exactly on the
whole 16-bit signed domain, wrap-around included. -/
theorem C5_midside_invertible (L R : Int)
    (hL1 : -32768 ≤ L) (hL2 : L ≤ 32767)
    (hR1 : -32768 ≤ R) (hR2 : R ≤ 32767) :
    midSideInv (midSideFwd [L, R]) = [L, R] :=
  midSideInv_midSideFwd [L, R] (by
    intro x hx
    rcases List.mem_pair.mp hx with rfl | rfl
    · exact ⟨hL1, hL2⟩
    · exact ⟨hR1, hR2⟩)

/-- C5 witness: the overflow pair `(32767, −32768)` named by the spec
(`side` wraps to −1) round-trips exactly. -/
theorem C5_midside_invertible_witness :
    midSideInv (midSideFwd [32767, -32768]) = [32767, -32768] :=
  C5_midside_invertible 32767 (-32768) (by decide) (by decide) (by decide)
    (by decide)

/-- C7 counterexample: with `m = 4` the claimed codeword table is wrong
already at `encode(0)`: the coder always emits two remainder bits
(`b = 2`, `cutoff = 0`), so `encode(0) = 100`, not the claimed `10` — and
the claimed string `10` does not even decode (EOF inside the remainder). -/
theorem C7_encode0_m4_not_claimed :
    Golomb.encode 4 0 ≠ [true, false] ∧
    Golomb.decode 4 [true, false] = none := by decide

/-- C7 (amended): the actual `m = 4` interleaving codewords are
`encode(0) = 100`, `encode(1) = 110`, `encode(−1) = 101`,
`encode(5) = 00110`, `encode(−3) = 0101`, and `Golomb::decode` recovers each
value consuming exactly the codeword's length. -/
theorem C7_golomb_m4_codewords :
    Golomb.encode 4 0 = [true, false, false] ∧
    Golomb.encode 4 1 = [true, true, false] ∧
    Golomb.encode 4 (-1) = [true, false, true] ∧
    Golomb.encode 4 5 = [false, false, true, true, false] ∧
    Golomb.encode 4 (-3) = [false, true, false, true] ∧
    Golomb.decode 4 [true, false, false] = some (0, 3) ∧
    Golomb.decode 4 [true, true, false] = some (1, 3) ∧
    Golomb.decode 4 [true, false, true] = some (-1, 3) ∧
    Golomb.decode 4 [false, false, true, true, false] = some (5, 5) ∧
    Golomb.decode 4 [false, true, false, true] = some (-3, 4) := by decide

/-- C8 counterexample: the order-2 predictor over `[100, 100, 100, 100]`
(history updated with the reconstructed sample after every step) yields
residuals `[100, −100, 0, 0]`, not the claimed `[100, 0, −100, 0]`: at the
second sample the history is already `(100, 0, 0)`, so the prediction is
`2·100 − 0 = 200` and the residual `−100`. -/
theorem C8_order2_residuals_not_claimed :
    (residsGo 2 1 0 [(0, 0, 0)] [100, 100, 100, 100]).1 ≠
      [100, 0, -100, 0] := by decide

/-- C8 (amended): the order-2 predictor over `[100, 100, 100, 100]` with
all-zero initial history produces the residuals `[100, −100, 0, 0]`, and the
decoder's reconstruction over those residuals reproduces the samples. -/
theorem C8_order2_residuals :
    (residsGo 2 1 0 [(0, 0, 0)] [100, 100, 100, 100]).1 =
      [100, -100, 0, 0] ∧
    (reconsGo 2 1 0 [(0, 0, 0)] [100, -100, 0, 0]).1 =
      [100, 100, 100, 100] := by decide

/-- C9: the audio encoder's unary quotient field never exceeds 10000 zero
bits; whenever `⌊interleave(residual)/m⌋` exceeds 10000 the emitted bits are
exactly 10000 zeros plus the true remainder — i.e. the valid codeword of the
different value `10000·m + (u mod m)` — so the symbol decoder (for any block
parameter `2 ≤ m`) returns that value, not the original residual. -/
theorem C9_unary_quotient_cap (m : Nat) (r : Int) (rest : List Bool)
    (hm : 1 ≤ m) (hm16 : m < 2 ^ 16) :
    ((encSymClamped m (ceilLog2 m) (2 ^ ceilLog2 m - m)
        (mapToUnsigned r)).takeWhile (fun x => !x)).length ≤ 10000 ∧
    (10000 < mapToUnsigned r / m →
      ((encSymClamped m (ceilLog2 m) (2 ^ ceilLog2 m - m)
          (mapToUnsigned r)).takeWhile (fun x => !x)).length = 10000 ∧
      encSymClamped m (ceilLog2 m) (2 ^ ceilLog2 m - m) (mapToUnsigned r) =
        encSymPlain m (ceilLog2 m) (2 ^ ceilLog2 m - m)
          (10000 * m + mapToUnsigned r % m) ∧
      10000 * m + mapToUnsigned r % m ≠ mapToUnsigned r ∧
      (2 ≤ m →
        decSym m (ceilLog2 m) (2 ^ ceilLog2 m - m)
          (encSymClamped m (ceilLog2 m) (2 ^ ceilLog2 m - m)
            (mapToUnsigned r) ++ rest) =
          .ok (10000 * m + mapToUnsigned r % m) rest)) := by
  have hzeros : ((encSymClamped m (ceilLog2 m) (2 ^ ceilLog2 m - m)
      (mapToUnsigned r)).takeWhile (fun x => !x)).length =
      min (mapToUnsigned r / m) 10000 := by
    rw [encSymClamped, takeWhile_replicate_false, List.length_replicate]
  have hrm : mapToUnsigned r % m < m := Nat.mod_lt _ (by omega)
  have hdiv : (10000 * m + mapToUnsigned r % m) / m = 10000 := by
    rw [mul_comm, Nat.mul_add_div (by omega)]
    rw [Nat.div_eq_of_lt hrm]
  have hmod : (10000 * m + mapToUnsigned r % m) % m = mapToUnsigned r % m := by
    rw [mul_comm 10000 m, Nat.mul_add_mod, Nat.mod_eq_of_lt hrm]
  refine ⟨by omega, fun hq => ⟨by omega, ?_, ?_, fun hm2 => ?_⟩⟩
  · rw [encSymClamped, encSymPlain, hdiv, hmod,
      Nat.min_eq_right (by omega)]
  · have hbig : 10001 * m ≤ mapToUnsigned r :=
      (Nat.le_div_iff_mul_le (by omega)).mp (by omega)
    have : 10000 * m + mapToUnsigned r % m < 10001 * m := by omega
    omega
  · obtain ⟨hb, hcut, hmc⟩ := golombParams m hm2 hm16
    rw [encSymClamped, Nat.min_eq_right (by omega)]
    have hd := decSym_encSymPlain m (ceilLog2 m) (2 ^ ceilLog2 m - m)
      (10000 * m + mapToUnsigned r % m) rest (by omega) hb hcut hmc
      (by rw [hdiv]; omega)
    rw [encSymPlain, hdiv, hmod] at hd
    exact hd

/-- C9 witness: `m = 2`, residual 10001 (`u = 20002`, true quotient 10001):
the codeword carries 10000 zeros and decodes to `20000 + 0 ≠ 20002`. -/
theorem C9_unary_quotient_cap_witness :
    ((encSymClamped 2 (ceilLog2 2) (2 ^ ceilLog2 2 - 2)
        (mapToUnsigned 10001)).takeWhile (fun x => !x)).length ≤ 10000 ∧
    (10000 < mapToUnsigned 10001 / 2 →
      ((encSymClamped 2 (ceilLog2 2) (2 ^ ceilLog2 2 - 2)
          (mapToUnsigned 10001)).takeWhile (fun x => !x)).length = 10000 ∧
      encSymClamped 2 (ceilLog2 2) (2 ^ ceilLog2 2 - 2)
          (mapToUnsigned 10001) =
        encSymPlain 2 (ceilLog2 2) (2 ^ ceilLog2 2 - 2)
          (10000 * 2 + mapToUnsigned 10001 % 2) ∧
      10000 * 2 + mapToUnsigned 10001 % 2 ≠ mapToUnsigned 10001 ∧
      (2 ≤ 2 →
        decSym 2 (ceilLog2 2) (2 ^ ceilLog2 2 - 2)
          (encSymClamped 2 (ceilLog2 2) (2 ^ ceilLog2 2 - 2)
            (mapToUnsigned 10001) ++ []) =
          .ok (10000 * 2 + mapToUnsigned 10001 % 2) [])) :=
  C9_unary_quotient_cap 2 10001 [] (by decide) (by decide)

/-- C10: for every block energy, the clamp
`energy_factor = max(0.5, min(2.0, 10·RMS))` forces the 16-bit field
`uint16(energy_factor·1000)` into `[500, 2000]`; in particular it is never 0
and survives the 16-bit write intact, so the lossy decoder's
`energy_enc == 0` end-of-stream test cannot fire on an encoder-produced
block. -/
theorem C10_energy_factor_field_bounds (e : ℚ) :
    500 ≤ energyFactorField e ∧ energyFactorField e ≤ 2000 ∧
      energyFactorField e ≠ 0 ∧
      energyFactorField e % 2 ^ 16 = energyFactorField e := by
  have h1 : (1 / 2 : ℚ) ≤ energyFactor e := le_max_left _ _
  have h2 : energyFactor e ≤ 2 := max_le (by norm_num) (min_le_left _ _)
  have h3 : (500 : Int) ≤ ⌊energyFactor e * 1000⌋ := by
    rw [Int.le_floor]
    push_cast
    linarith
  have h4 : ⌊energyFactor e * 1000⌋ ≤ 2000 := by
    have hf := Int.floor_le (energyFactor e * 1000)
    have hle : energyFactor e * 1000 ≤ 2000 := by linarith
    exact_mod_cast le_trans hf hle
  unfold energyFactorField
  omega

end ICProj2
